import Mathlib

/-!
Verification of the LInk local workspace synchronization engine.

This file gives a shallow embedding of the two core services of the
repository, FileWatcherService and LocalFileSystemService, and proves
properties of that embedding.  TypeScript Maps over string keys are
modelled as association lists, the File System Access API directory
tree is modelled as an inductive Entry tree, JavaScript timestamps and
sizes are modelled as Nat, and thrown exceptions are modelled with
Except or Option.  Each definition is translated from the source file
it names in its doc comment.
-/

/-- FileChangeEvent.type from the watcher source: the event vocabulary
including the reserved renamed variant that the differ never emits. -/
inductive EventType where
  | created
  | modified
  | deleted
  | renamed
deriving DecidableEq, Repr

/-- The {size, lastModified} metadata the watcher records per file. -/
structure FileInfo where
  size : Nat
  lastModified : Nat
deriving DecidableEq, Repr

/-- FileChangeEvent from the watcher source (the oldPath field is only
used by renamed events, which are never produced; it is omitted). -/
structure FileChangeEvent where
  type : EventType
  path : String
  timestamp : Nat
deriving DecidableEq, Repr

/-- A Flat Snapshot: Map of relative path to FileInfo, modelled as an
association list in iteration order. -/
abbrev Snapshot := List (String × FileInfo)

/-- Map.get on the association-list model of a snapshot. -/
def snapLookup : Snapshot → String → Option FileInfo
  | [], _ => none
  | (q, i) :: rest, p => if q = p then some i else snapLookup rest p

/-- Well-formedness of a snapshot: a Map never holds two entries for
the same key. -/
def snapWF (s : Snapshot) : Prop := (s.map Prod.fst).Nodup

instance (s : Snapshot) : Decidable (snapWF s) := by
  unfold snapWF; infer_instance

/-- FileWatcherService.compareSnapshots (src/unnamed/part_000 lines
157-201): walk the current snapshot emitting created and modified
events, then walk the previous snapshot emitting deleted events; all
events of one cycle carry the same clock reading now. -/
def compareSnapshots (previous current : Snapshot) (now : Nat) :
    List FileChangeEvent :=
  (current.filterMap (fun pc =>
    match snapLookup previous pc.1 with
    | none => some ⟨.created, pc.1, now⟩
    | some prev =>
      if pc.2.size ≠ prev.size ∨ pc.2.lastModified ≠ prev.lastModified
      then some ⟨.modified, pc.1, now⟩
      else none))
  ++ (previous.filterMap (fun pv =>
    if (snapLookup current pv.1).isNone
    then some ⟨.deleted, pv.1, now⟩
    else none))

theorem snapLookup_isSome_of_mem {s : Snapshot} {p : String} {i : FileInfo}
    (h : (p, i) ∈ s) : (snapLookup s p).isSome := by
  induction s with
  | nil => cases h
  | cons hd tl ih =>
    obtain ⟨q, j⟩ := hd
    rcases List.mem_cons.mp h with h1 | h1
    · cases h1; simp [snapLookup]
    · by_cases hq : q = p
      · simp [snapLookup, hq]
      · simpa [snapLookup, hq] using ih h1

theorem mem_of_snapLookup_eq_some {s : Snapshot} {p : String} {i : FileInfo}
    (h : snapLookup s p = some i) : (p, i) ∈ s := by
  induction s with
  | nil => simp [snapLookup] at h
  | cons hd tl ih =>
    obtain ⟨q, j⟩ := hd
    by_cases hq : q = p
    · subst hq
      simp [snapLookup] at h
      simp [h]
    · simp [snapLookup, hq] at h
      exact List.mem_cons_of_mem _ (ih h)

theorem snapLookup_eq_some_of_mem {s : Snapshot} {p : String} {i : FileInfo}
    (hwf : snapWF s) (h : (p, i) ∈ s) : snapLookup s p = some i := by
  induction s with
  | nil => cases h
  | cons hd tl ih =>
    obtain ⟨q, j⟩ := hd
    rcases List.mem_cons.mp h with h1 | h1
    · cases h1; simp [snapLookup]
    · have hq : q ≠ p := by
        intro hqp
        subst hqp
        have : q ∈ tl.map Prod.fst := List.mem_map.mpr ⟨(q, i), h1, rfl⟩
        exact (List.nodup_cons.mp hwf).1 this
      simp [snapLookup, hq]
      exact ih (List.nodup_cons.mp hwf).2 h1

theorem snapLookup_isSome_iff_mem_keys {s : Snapshot} {p : String} :
    (snapLookup s p).isSome ↔ p ∈ s.map Prod.fst := by
  constructor
  · intro h
    obtain ⟨i, hi⟩ := Option.isSome_iff_exists.mp h
    exact List.mem_map.mpr ⟨(p, i), mem_of_snapLookup_eq_some hi, rfl⟩
  · intro h
    obtain ⟨⟨q, i⟩, hmem, hq⟩ := List.mem_map.mp h
    cases hq
    exact snapLookup_isSome_of_mem hmem

theorem path_nodup_filterMap {l : Snapshot}
    (f : String × FileInfo → Option FileChangeEvent)
    (hf : ∀ pc e, f pc = some e → e.path = pc.1)
    (h : (l.map Prod.fst).Nodup) :
    ((l.filterMap f).map FileChangeEvent.path).Nodup := by
  induction l with
  | nil => simp
  | cons hd tl ih =>
    have hkey := List.nodup_cons.mp h
    rcases hc : f hd with _ | e
    · simpa [List.filterMap_cons, hc] using ih hkey.2
    · rw [List.filterMap_cons, hc]
      rw [List.map_cons, List.nodup_cons]
      refine ⟨?_, ih hkey.2⟩
      intro hmem
      obtain ⟨e2, he2, hpe2⟩ := List.mem_map.mp hmem
      obtain ⟨pc, hpc, hfpc⟩ := List.mem_filterMap.mp he2
      have : pc.1 ∈ tl.map Prod.fst := List.mem_map.mpr ⟨pc, hpc, rfl⟩
      rw [hf pc e2 hfpc] at hpe2
      rw [hf hd e hc] at hpe2
      rw [hpe2] at this
      exact hkey.1 this

theorem mem_path_filterMap_fst {l : Snapshot} {x : String}
    {f : String × FileInfo → Option FileChangeEvent}
    (hf : ∀ pc e, f pc = some e → e.path = pc.1)
    (h : x ∈ (l.filterMap f).map FileChangeEvent.path) :
    ∃ pc : String × FileInfo, pc ∈ l ∧ pc.1 = x := by
  obtain ⟨e, he, hpe⟩ := List.mem_map.mp h
  obtain ⟨pc, hpc, hfpc⟩ := List.mem_filterMap.mp he
  exact ⟨pc, hpc, by rw [← hf pc e hfpc, hpe]⟩

/-- C1: the Snapshot Differ emits exactly one created event per path new
in the current snapshot, one modified event per common path with changed
size or lastModified, one deleted event per path that disappeared, and
nothing else; diffing a snapshot against itself yields no events. -/
theorem compareSnapshots_diff_spec (previous current : Snapshot) (now : Nat)
    (hp : snapWF previous) (hc : snapWF current) :
    (∀ e : FileChangeEvent, e ∈ compareSnapshots previous current now ↔
      (e.timestamp = now ∧
        ((e.type = .created ∧ (snapLookup current e.path).isSome ∧
            snapLookup previous e.path = none) ∨
         (e.type = .modified ∧ ∃ c pv : FileInfo,
            snapLookup current e.path = some c ∧
            snapLookup previous e.path = some pv ∧
            (c.size ≠ pv.size ∨ c.lastModified ≠ pv.lastModified)) ∨
         (e.type = .deleted ∧ (snapLookup previous e.path).isSome ∧
            snapLookup current e.path = none))))
    ∧ ((compareSnapshots previous current now).map
        (fun e => (e.type, e.path))).Nodup
    ∧ compareSnapshots previous previous now = [] := by
  refine ⟨?_, ?_, ?_⟩
  · intro e
    obtain ⟨t, p, ts⟩ := e
    constructor
    · intro hmem
      rcases List.mem_append.mp hmem with hmem | hmem
      · obtain ⟨⟨q, i⟩, hq, hf⟩ := List.mem_filterMap.mp hmem
        dsimp only at hf
        split at hf
        · rename_i hlk
          simp only [Option.some.injEq, FileChangeEvent.mk.injEq] at hf
          obtain ⟨ht, hpq, hts⟩ := hf
          subst ht; subst hpq; subst hts
          exact ⟨rfl, Or.inl ⟨rfl, snapLookup_isSome_of_mem hq, hlk⟩⟩
        · rename_i pr hlk
          split at hf
          · rename_i hcond
            simp only [Option.some.injEq, FileChangeEvent.mk.injEq] at hf
            obtain ⟨ht, hpq, hts⟩ := hf
            subst ht; subst hpq; subst hts
            exact ⟨rfl, Or.inr (Or.inl ⟨rfl, i, pr,
              snapLookup_eq_some_of_mem hc hq, hlk, hcond⟩)⟩
          · cases hf
      · obtain ⟨⟨q, i⟩, hq, hf⟩ := List.mem_filterMap.mp hmem
        dsimp only at hf
        split at hf
        · rename_i hnone
          simp only [Option.some.injEq, FileChangeEvent.mk.injEq] at hf
          obtain ⟨ht, hpq, hts⟩ := hf
          subst ht; subst hpq; subst hts
          exact ⟨rfl, Or.inr (Or.inr ⟨rfl, snapLookup_isSome_of_mem hq,
            Option.isNone_iff_eq_none.mp hnone⟩)⟩
        · cases hf
    · rintro ⟨hts, hcase⟩
      simp only at hts
      subst hts
      rcases hcase with ⟨ht, hsome, hnone⟩ | ⟨ht, c, pv, hcur, hprev, hcond⟩ |
        ⟨ht, hsome, hnone⟩
      · simp only at ht hsome hnone
        subst ht
        obtain ⟨c, hcget⟩ := Option.isSome_iff_exists.mp hsome
        refine List.mem_append.mpr (Or.inl (List.mem_filterMap.mpr
          ⟨(p, c), mem_of_snapLookup_eq_some hcget, ?_⟩))
        simp only [hnone]
      · simp only at ht hcur hprev
        subst ht
        refine List.mem_append.mpr (Or.inl (List.mem_filterMap.mpr
          ⟨(p, c), mem_of_snapLookup_eq_some hcur, ?_⟩))
        simp only [hprev]
        rw [if_pos hcond]
      · simp only at ht hsome hnone
        subst ht
        obtain ⟨i, higet⟩ := Option.isSome_iff_exists.mp hsome
        refine List.mem_append.mpr (Or.inr (List.mem_filterMap.mpr
          ⟨(p, i), mem_of_snapLookup_eq_some higet, ?_⟩))
        rw [if_pos (by simp [hnone])]
  · have hf1 : ∀ pc e, (fun pc : String × FileInfo =>
        match snapLookup previous pc.1 with
        | none => some (⟨.created, pc.1, now⟩ : FileChangeEvent)
        | some prev =>
          if pc.2.size ≠ prev.size ∨ pc.2.lastModified ≠ prev.lastModified
          then some ⟨.modified, pc.1, now⟩
          else none) pc = some e → e.path = pc.1 := by
      intro pc e h
      dsimp only at h
      split at h
      · cases h
        rfl
      · split at h
        · cases h
          rfl
        · cases h
    have hf2 : ∀ pc e, (fun pv : String × FileInfo =>
        if (snapLookup current pv.1).isNone
        then some (⟨.deleted, pv.1, now⟩ : FileChangeEvent)
        else none) pc = some e → e.path = pc.1 := by
      intro pc e h
      dsimp only at h
      split at h
      · cases h
        rfl
      · cases h
    have hpaths :
        ((compareSnapshots previous current now).map FileChangeEvent.path).Nodup := by
      unfold compareSnapshots
      rw [List.map_append]
      refine List.Nodup.append (path_nodup_filterMap _ hf1 hc)
        (path_nodup_filterMap _ hf2 hp) ?_
      intro x hx1 hx2
      obtain ⟨e2, he2, hpe2⟩ := List.mem_map.mp hx2
      obtain ⟨pv, hpv, hfpv⟩ := List.mem_filterMap.mp he2
      by_cases hn : (snapLookup current pv.1).isNone
      · obtain ⟨e1, he1, hpe1⟩ := List.mem_map.mp hx1
        obtain ⟨pc, hpc, hfpc⟩ := List.mem_filterMap.mp he1
        have hx1some : (snapLookup current x).isSome := by
          rw [← hpe1, hf1 pc e1 hfpc]
          exact snapLookup_isSome_of_mem (by simpa using hpc)
        have hx2none : snapLookup current x = none := by
          rw [← hpe2, hf2 pv e2 hfpv]
          exact Option.isNone_iff_eq_none.mp hn
        rw [hx2none] at hx1some
        cases hx1some
      · rw [if_neg hn] at hfpv
        cases hfpv
    have := List.Nodup.of_map Prod.snd
      (l := (compareSnapshots previous current now).map (fun e => (e.type, e.path)))
    refine this ?_
    rw [List.map_map]
    have hcomp : (Prod.snd ∘ fun e : FileChangeEvent => (e.type, e.path)) =
        FileChangeEvent.path := rfl
    rw [hcomp]
    exact hpaths
  · unfold compareSnapshots
    rw [List.append_eq_nil]
    constructor
    · refine List.filterMap_eq_nil_iff.mpr ?_
      intro pc hpc
      have hlk : snapLookup previous pc.1 = some pc.2 :=
        snapLookup_eq_some_of_mem hp (by simpa using hpc)
      simp [hlk]
    · refine List.filterMap_eq_nil_iff.mpr ?_
      intro pv hpv
      have hs : (snapLookup previous pv.1).isSome :=
        snapLookup_isSome_of_mem (by simpa using hpv)
      obtain ⟨a, ha⟩ := Option.isSome_iff_exists.mp hs
      simp [ha]

theorem compareSnapshots_diff_spec_witness :
    (snapWF [("a", (⟨1, 2⟩ : FileInfo))] ∧
      snapWF [("a", (⟨1, 3⟩ : FileInfo)), ("b", ⟨0, 0⟩)]) ∧
    ((∀ e : FileChangeEvent,
      e ∈ compareSnapshots [("a", ⟨1, 2⟩)] [("a", ⟨1, 3⟩), ("b", ⟨0, 0⟩)] 7 ↔
      (e.timestamp = 7 ∧
        ((e.type = .created ∧
            (snapLookup [("a", ⟨1, 3⟩), ("b", ⟨0, 0⟩)] e.path).isSome ∧
            snapLookup [("a", ⟨1, 2⟩)] e.path = none) ∨
         (e.type = .modified ∧ ∃ c pv : FileInfo,
            snapLookup [("a", ⟨1, 3⟩), ("b", ⟨0, 0⟩)] e.path = some c ∧
            snapLookup [("a", ⟨1, 2⟩)] e.path = some pv ∧
            (c.size ≠ pv.size ∨ c.lastModified ≠ pv.lastModified)) ∨
         (e.type = .deleted ∧
            (snapLookup [("a", ⟨1, 2⟩)] e.path).isSome ∧
            snapLookup [("a", ⟨1, 3⟩), ("b", ⟨0, 0⟩)] e.path = none))))
    ∧ ((compareSnapshots [("a", ⟨1, 2⟩)] [("a", ⟨1, 3⟩), ("b", ⟨0, 0⟩)] 7).map
        (fun e => (e.type, e.path))).Nodup
    ∧ compareSnapshots [("a", ⟨1, 2⟩)] [("a", ⟨1, 2⟩)] 7 = []) :=
  ⟨⟨by decide, by decide⟩,
    compareSnapshots_diff_spec [("a", ⟨1, 2⟩)] [("a", ⟨1, 3⟩), ("b", ⟨0, 0⟩)] 7
      (by decide) (by decide)⟩

/-- JavaScript String.prototype.startsWith, over the character list. -/
def strStartsWith (s pat : String) : Bool := pat.data.isPrefixOf s.data

/-- Substring containment on character lists. -/
def charsContains (pat : List Char) : List Char → Bool
  | [] => pat.isEmpty
  | c :: rest => pat.isPrefixOf (c :: rest) || charsContains pat rest

/-- JavaScript String.prototype.includes. -/
def strIncludes (s pat : String) : Bool := charsContains pat.data s.data

/-- JavaScript String.prototype.lastIndexOf for a single character,
returning none where the original returns -1. -/
def lastIdxOf (c : Char) : List Char → Option Nat
  | [] => none
  | x :: xs =>
    match lastIdxOf c xs with
    | some i => some (i + 1)
    | none => if x = c then some 0 else none

/-- LocalFileSystemService.getFileExtension (src/unnamed/part_000 lines
524-527): the suffix from the last dot when that dot sits at an index
greater than zero, and the empty string otherwise. -/
def getFileExtension (fileName : String) : String :=
  match lastIdxOf '.' fileName.data with
  | some i => if 0 < i then String.mk (fileName.data.drop i) else ""
  | none => ""

/-- A directory entry of the File System Access API capability graph.
A file carries its stored text and lastModified stamp, with size equal
to the content length; badFile is an entry whose getFile call throws
when its metadata or content is read; dir carries its child entries in
enumeration order. -/
inductive Entry where
  | file (name : String) (content : String) (lastModified : Nat)
  | badFile (name : String)
  | dir (name : String) (children : List Entry)

def Entry.name : Entry → String
  | .file n _ _ => n
  | .badFile n => n
  | .dir n _ => n

/-- The fixed exclusion list of FileWatcherService.shouldExclude
(src/unnamed/part_000 lines 217-235). -/
def watcherExcludePatterns : List String :=
  ["node_modules", ".git", ".DS_Store", ".vscode", "dist", "build",
   ".next", ".nuxt", "coverage", ".nyc_output", "Thumbs.db"]

/-- FileWatcherService.shouldExclude: exact match or prefix match
against the fixed pattern list. -/
def watcherShouldExclude (name : String) : Bool :=
  watcherExcludePatterns.any (fun pat => name = pat || strStartsWith name pat)

/-- Path concatenation as written in the watcher and the tree builder:
currentPath is falsy exactly when it is empty. -/
def joinPath (currentPath name : String) : String :=
  if currentPath = "" then name else currentPath ++ "/" ++ name

/-- FileWatcherService.scanDirectory (src/unnamed/part_000 lines
79-108), also the body of scanDirectoryForChanges (lines 125-154):
record every non-excluded file with its size and lastModified; a file
whose getFile throws is logged and skipped; recurse into non-excluded
directories.  No extension filter is applied. -/
def scanDirectory (currentPath : String) : List Entry → Snapshot
  | [] => []
  | e :: rest =>
    if watcherShouldExclude e.name then scanDirectory currentPath rest
    else
      match e with
      | .file n c lm =>
        (joinPath currentPath n, ⟨c.length, lm⟩) :: scanDirectory currentPath rest
      | .badFile _ => scanDirectory currentPath rest
      | .dir n ch =>
        scanDirectory (joinPath currentPath n) ch ++ scanDirectory currentPath rest

/-- A subscriber of the watcher: an id and whether its callback throws
on a given event. -/
structure Listener where
  id : Nat
  throws : FileChangeEvent → Bool

/-- Invoking one listener callback: Except.error models a throw. -/
def runListener (l : Listener) (e : FileChangeEvent) : Except String Unit :=
  if l.throws e then Except.error "listener error" else Except.ok ()

/-- FileWatcherService.notifyListeners (src/unnamed/part_000 lines
204-214): a forEach over the listener set with a try catch around each
callback; the returned list records, in order, the id of every listener
whose callback was invoked with the event.  The function is total: a
throwing callback is caught and logged, never propagated. -/
def notifyListeners : List Listener → FileChangeEvent → List Nat
  | [], _ => []
  | l :: rest, e =>
    match runListener l e with
    | .ok _ => l.id :: notifyListeners rest e
    | .error _ => l.id :: notifyListeners rest e

/-- The static mutable state of FileWatcherService. -/
structure WatcherState where
  listeners : List Listener
  isWatching : Bool
  watchInterval : Option Nat
  lastSnapshot : Snapshot
  directoryHandle : Option (List Entry)

/-- The initial values of the static fields of FileWatcherService. -/
def initialWatcherState : WatcherState := ⟨[], false, none, [], none⟩

/-- FileWatcherService.startWatching (src/unnamed/part_000 lines
20-37): an unconditional early return when already watching, otherwise
store the capability, set the flag, capture the initial snapshot and
start the interval timer (whose numeric id is modelled as 0). -/
def startWatching (directoryHandle : List Entry) (st : WatcherState) : WatcherState :=
  if st.isWatching then st
  else
    { st with
      directoryHandle := some directoryHandle
      isWatching := true
      lastSnapshot := scanDirectory "" directoryHandle
      watchInterval := some 0 }

/-- FileWatcherService.stopWatching (src/unnamed/part_000 lines 40-51). -/
def stopWatching (st : WatcherState) : WatcherState :=
  { st with
    watchInterval := none
    isWatching := false
    lastSnapshot := []
    directoryHandle := none }

/-- FileWatcherService.checkForChanges (src/unnamed/part_000 lines
111-122): scan a fresh snapshot, diff it against the stored one, emit
the events and replace the stored snapshot.  The returned list holds
the events this cycle hands to notifyListeners. -/
def checkForChanges (now : Nat) (st : WatcherState) :
    WatcherState × List FileChangeEvent :=
  match st.directoryHandle with
  | none => (st, [])
  | some h =>
    let currentSnapshot := scanDirectory "" h
    let events := compareSnapshots st.lastSnapshot currentSnapshot now
    ({ st with lastSnapshot := currentSnapshot }, events)

/-- FileWatcherService.forceCheck (src/unnamed/part_000 lines 64-68):
run one check cycle only when a capability reference is held. -/
def forceCheck (now : Nat) (st : WatcherState) :
    WatcherState × List FileChangeEvent :=
  match st.directoryHandle with
  | none => (st, [])
  | some _ => checkForChanges now st

/-- C8: every registered listener is invoked with every published
event, in registration order, no matter which callbacks throw, and
notification always returns normally to the loop. -/
theorem notifyListeners_delivers_to_all (listeners : List Listener)
    (e : FileChangeEvent) :
    notifyListeners listeners e = listeners.map Listener.id := by
  induction listeners with
  | nil => rfl
  | cons l rest ih =>
    unfold notifyListeners
    cases hr : runListener l e <;> simp [ih]

/-- Sample capability trees used by concrete counterexamples. -/
def treeA : List Entry := [Entry.file "a.md" "x" 1]

def treeB : List Entry := [Entry.file "b.md" "y" 2]

/-- C6 counterexample: starting the watcher on treeB while it already
watches treeA leaves it watching treeA; the claimed stop-and-restart on
a different capability does not happen. -/
theorem startWatching_different_capability_cex :
    (startWatching treeB (startWatching treeA initialWatcherState)).directoryHandle
      = some treeA ∧ treeA ≠ treeB := by
  constructor
  · rfl
  · simp [treeA, treeB]

/-- C6 amended: startWatching while the loop is already watching is an
unconditional no-op, whether the supplied capability is the same one or
a different one; the loop keeps the previously stored capability. -/
theorem startWatching_while_watching_noop (st : WatcherState)
    (directoryHandle : List Entry) (hw : st.isWatching = true) :
    startWatching directoryHandle st = st := by
  simp [startWatching, hw]

theorem startWatching_while_watching_noop_witness :
    (startWatching treeA initialWatcherState).isWatching = true ∧
    startWatching treeB (startWatching treeA initialWatcherState)
      = startWatching treeA initialWatcherState :=
  ⟨rfl, startWatching_while_watching_noop (startWatching treeA initialWatcherState)
    treeB rfl⟩

/-- C10: once the capability reference is cleared (as stopWatching
always leaves it), forceCheck scans nothing, publishes no events and
returns the watcher state unchanged in every field. -/
theorem forceCheck_without_handle_frame (st : WatcherState) (now : Nat)
    (h : st.directoryHandle = none) :
    forceCheck now st = (st, []) ∧
    ∀ st0 : WatcherState, (stopWatching st0).directoryHandle = none := by
  constructor
  · simp [forceCheck, h]
  · intro st0
    rfl

theorem forceCheck_without_handle_frame_witness :
    (stopWatching (startWatching treeA initialWatcherState)).directoryHandle = none ∧
    (forceCheck 5 (stopWatching (startWatching treeA initialWatcherState))
        = (stopWatching (startWatching treeA initialWatcherState), []) ∧
      ∀ st0 : WatcherState, (stopWatching st0).directoryHandle = none) :=
  ⟨rfl, forceCheck_without_handle_frame
    (stopWatching (startWatching treeA initialWatcherState)) 5 rfl⟩

/-- The watched-extension allowlist installed by
LocalFileSystemService.setWorkspace (src/unnamed/part_000 line 279). -/
def watchedExtensionsDefault : List String :=
  [".md", ".markdown", ".txt", ".docx", ".doc"]

/-- Reference reachability predicate: the file named by the segment
list exists in the entry forest, every segment on the way (directory
names and the file name itself) survives the watcher exclusion check,
and the recorded metadata is the file size and lastModified stamp. -/
def ReachesFile : List Entry → List String → FileInfo → Prop
  | _, [], _ => False
  | es, [s], i => ∃ c lm, Entry.file s c lm ∈ es ∧
      watcherShouldExclude s = false ∧ i = ⟨c.length, lm⟩
  | es, d :: s :: r, i => ∃ ch, Entry.dir d ch ∈ es ∧
      watcherShouldExclude d = false ∧ ReachesFile ch (s :: r) i

/-- Folding joinPath over the segments, as the recursive scan does. -/
def joinSegs (currentPath : String) (segs : List String) : String :=
  segs.foldl joinPath currentPath

@[simp] theorem joinSegs_nil (cur : String) : joinSegs cur [] = cur := rfl

@[simp] theorem joinSegs_cons (cur s : String) (r : List String) :
    joinSegs cur (s :: r) = joinSegs (joinPath cur s) r := rfl

@[simp] theorem reachesFile_nil_segs (es : List Entry) (i : FileInfo) :
    ¬ ReachesFile es [] i := by simp [ReachesFile]

theorem reachesFile_single (es : List Entry) (s : String) (i : FileInfo) :
    ReachesFile es [s] i ↔ ∃ c lm, Entry.file s c lm ∈ es ∧
      watcherShouldExclude s = false ∧ i = ⟨c.length, lm⟩ := Iff.rfl

theorem reachesFile_cons2 (es : List Entry) (d s : String) (r : List String)
    (i : FileInfo) :
    ReachesFile es (d :: s :: r) i ↔ ∃ ch, Entry.dir d ch ∈ es ∧
      watcherShouldExclude d = false ∧ ReachesFile ch (s :: r) i := Iff.rfl

theorem reachesFile_of_tail {e : Entry} {rest : List Entry}
    {segs : List String} {i : FileInfo} (h : ReachesFile rest segs i) :
    ReachesFile (e :: rest) segs i := by
  rcases segs with _ | ⟨s, _ | ⟨s2, r⟩⟩
  · exact absurd h (reachesFile_nil_segs rest i)
  · obtain ⟨c, lm, hm, hx, hi⟩ := (reachesFile_single rest s i).mp h
    exact (reachesFile_single _ s i).mpr ⟨c, lm, List.mem_cons_of_mem _ hm, hx, hi⟩
  · obtain ⟨ch, hm, hx, hr⟩ := (reachesFile_cons2 rest s s2 r i).mp h
    exact (reachesFile_cons2 _ s s2 r i).mpr
      ⟨ch, List.mem_cons_of_mem _ hm, hx, hr⟩

/-- C3 amended: a path/metadata pair is in a snapshot captured by
scanDirectory exactly when it names a real file reachable through
watcher-non-excluded components, regardless of the extension of the
file; folders never contribute entries.  The Tree Builder extension
allowlist is not applied by snapshot capture. -/
theorem scanDirectory_mem_iff (cur : String) (es : List Entry) (p : String)
    (i : FileInfo) :
    (p, i) ∈ scanDirectory cur es ↔
      ∃ segs : List String, p = joinSegs cur segs ∧ ReachesFile es segs i := by
  induction cur, es using scanDirectory.induct with
  | case1 cur =>
    simp only [scanDirectory, List.not_mem_nil, false_iff, not_exists]
    rintro segs ⟨hp, hr⟩
    rcases segs with _ | ⟨s, _ | ⟨s2, r⟩⟩
    · exact reachesFile_nil_segs [] i hr
    · obtain ⟨c, lm, hm, _, _⟩ := (reachesFile_single [] s i).mp hr
      cases hm
    · obtain ⟨ch, hm, _, _⟩ := (reachesFile_cons2 [] s s2 r i).mp hr
      cases hm
  | case2 cur e rest hexcl ih =>
    have heq : scanDirectory cur (e :: rest) = scanDirectory cur rest := by
      cases e with
      | file n c lm => rw [scanDirectory, if_pos hexcl]
      | badFile n => rw [scanDirectory, if_pos hexcl]
      | dir n ch => rw [scanDirectory, if_pos hexcl]
    rw [heq, ih]
    constructor
    · rintro ⟨segs, hp, hr⟩
      exact ⟨segs, hp, reachesFile_of_tail hr⟩
    · rintro ⟨segs, hp, hr⟩
      refine ⟨segs, hp, ?_⟩
      rcases segs with _ | ⟨s, _ | ⟨s2, r⟩⟩
      · exact absurd hr (reachesFile_nil_segs _ i)
      · obtain ⟨c, lm, hm, hx, hi⟩ := (reachesFile_single _ s i).mp hr
        rcases List.mem_cons.mp hm with hm1 | hm1
        · rw [← hm1] at hexcl
          simp only [Entry.name] at hexcl
          rw [hexcl] at hx
          cases hx
        · exact (reachesFile_single _ s i).mpr ⟨c, lm, hm1, hx, hi⟩
      · obtain ⟨ch, hm, hx, hr2⟩ := (reachesFile_cons2 _ s s2 r i).mp hr
        rcases List.mem_cons.mp hm with hm1 | hm1
        · rw [← hm1] at hexcl
          simp only [Entry.name] at hexcl
          rw [hexcl] at hx
          cases hx
        · exact (reachesFile_cons2 _ s s2 r i).mpr ⟨ch, hm1, hx, hr2⟩
  | case3 cur rest n c lm hexcl ih =>
    have hx : watcherShouldExclude n = false := by
      simpa [Entry.name] using hexcl
    simp only [scanDirectory]
    rw [if_neg hexcl]
    simp only [List.mem_cons, Prod.mk.injEq]
    rw [ih]
    constructor
    · rintro (⟨hp, hi⟩ | ⟨segs, hp, hr⟩)
      · exact ⟨[n], by simpa using hp,
          (reachesFile_single _ n i).mpr ⟨c, lm, List.mem_cons_self _ _, hx, hi⟩⟩
      · exact ⟨segs, hp, reachesFile_of_tail hr⟩
    · rintro ⟨segs, hp, hr⟩
      rcases segs with _ | ⟨s, _ | ⟨s2, r⟩⟩
      · exact absurd hr (reachesFile_nil_segs _ i)
      · obtain ⟨c2, lm2, hm, hx2, hi⟩ := (reachesFile_single _ s i).mp hr
        rcases List.mem_cons.mp hm with hm1 | hm1
        · obtain ⟨hs, hc, hlm⟩ := Entry.file.inj hm1
          subst hs; subst hc; subst hlm
          exact Or.inl ⟨by simpa using hp, hi⟩
        · exact Or.inr ⟨[s], hp,
            (reachesFile_single _ s i).mpr ⟨c2, lm2, hm1, hx2, hi⟩⟩
      · obtain ⟨ch, hm, hx2, hr2⟩ := (reachesFile_cons2 _ s s2 r i).mp hr
        rcases List.mem_cons.mp hm with hm1 | hm1
        · cases hm1
        · exact Or.inr ⟨s :: s2 :: r, hp,
            (reachesFile_cons2 _ s s2 r i).mpr ⟨ch, hm1, hx2, hr2⟩⟩
  | case4 cur rest n hexcl ih =>
    simp only [scanDirectory]
    rw [if_neg hexcl]
    rw [ih]
    constructor
    · rintro ⟨segs, hp, hr⟩
      exact ⟨segs, hp, reachesFile_of_tail hr⟩
    · rintro ⟨segs, hp, hr⟩
      refine ⟨segs, hp, ?_⟩
      rcases segs with _ | ⟨s, _ | ⟨s2, r⟩⟩
      · exact absurd hr (reachesFile_nil_segs _ i)
      · obtain ⟨c2, lm2, hm, hx2, hi⟩ := (reachesFile_single _ s i).mp hr
        rcases List.mem_cons.mp hm with hm1 | hm1
        · cases hm1
        · exact (reachesFile_single _ s i).mpr ⟨c2, lm2, hm1, hx2, hi⟩
      · obtain ⟨ch, hm, hx2, hr2⟩ := (reachesFile_cons2 _ s s2 r i).mp hr
        rcases List.mem_cons.mp hm with hm1 | hm1
        · cases hm1
        · exact (reachesFile_cons2 _ s s2 r i).mpr ⟨ch, hm1, hx2, hr2⟩
  | case5 cur rest n ch hexcl ihch ihrest =>
    have hx : watcherShouldExclude n = false := by
      simpa [Entry.name] using hexcl
    simp only [scanDirectory]
    rw [if_neg hexcl]
    rw [List.mem_append, ihch, ihrest]
    constructor
    · rintro (⟨segs2, hp, hr⟩ | ⟨segs, hp, hr⟩)
      · rcases segs2 with _ | ⟨s, r⟩
        · exact absurd hr (reachesFile_nil_segs _ i)
        · exact ⟨n :: s :: r, by simpa using hp,
            (reachesFile_cons2 _ n s r i).mpr ⟨ch, List.mem_cons_self _ _, hx, hr⟩⟩
      · exact ⟨segs, hp, reachesFile_of_tail hr⟩
    · rintro ⟨segs, hp, hr⟩
      rcases segs with _ | ⟨s, _ | ⟨s2, r⟩⟩
      · exact absurd hr (reachesFile_nil_segs _ i)
      · obtain ⟨c2, lm2, hm, hx2, hi⟩ := (reachesFile_single _ s i).mp hr
        rcases List.mem_cons.mp hm with hm1 | hm1
        · cases hm1
        · exact Or.inr ⟨[s], hp,
            (reachesFile_single _ s i).mpr ⟨c2, lm2, hm1, hx2, hi⟩⟩
      · obtain ⟨ch2, hm, hx2, hr2⟩ := (reachesFile_cons2 _ s s2 r i).mp hr
        rcases List.mem_cons.mp hm with hm1 | hm1
        · obtain ⟨hs, hch⟩ := Entry.dir.inj hm1
          subst hs; subst hch
          exact Or.inl ⟨s2 :: r, by simpa using hp, hr2⟩
        · exact Or.inr ⟨s :: s2 :: r, hp,
            (reachesFile_cons2 _ s s2 r i).mpr ⟨ch2, hm1, hx2, hr2⟩⟩

/-- A workspace holding a single image file, outside the allowlist. -/
def pngTree : List Entry := [Entry.file "photo.png" "xx" 3]

/-- C3 counterexample: the snapshot captured over pngTree contains the
non-allowlisted png file, so snapshot capture does not apply the
watched-extension allowlist the claim asserts. -/
theorem scanDirectory_no_extension_filter_cex :
    scanDirectory "" pngTree = [("photo.png", ⟨2, 3⟩)] ∧
    getFileExtension "photo.png" = ".png" ∧
    ".png" ∉ watchedExtensionsDefault := by
  have hex : watcherShouldExclude "photo.png" = false := by decide
  refine ⟨?_, by decide, by decide⟩
  simp only [pngTree, scanDirectory, Entry.name, hex]
  rw [if_neg (by simp)]
  simp [joinPath]
  rfl

/-- WorkspaceConfig from src/unnamed/part_000 lines 260-264. -/
structure WorkspaceConfig where
  rootPath : String
  watchedExtensions : List String
  excludePatterns : List String

/-- The configuration installed by LocalFileSystemService.setWorkspace
(src/unnamed/part_000 lines 277-281): note the exclusion list here is
only node_modules, .git and .DS_Store. -/
def defaultWorkspaceConfig (rootPath : String) : WorkspaceConfig :=
  ⟨rootPath, watchedExtensionsDefault, ["node_modules", ".git", ".DS_Store"]⟩

/-- LocalFileSystemService.shouldExclude (src/unnamed/part_000 lines
518-522): substring containment of a configured pattern in the entry
name; false whenever no workspace configuration is set. -/
def lfsShouldExclude (workspaceConfig : Option WorkspaceConfig) (name : String) : Bool :=
  match workspaceConfig with
  | none => false
  | some cfg => cfg.excludePatterns.any (fun pat => strIncludes name pat)

/-- The watched-extension test of buildFolderTree (src/unnamed/part_000
line 325): Array.includes on the configured allowlist, falsy when no
configuration is set. -/
def watchedOK (workspaceConfig : Option WorkspaceConfig) (ext : String) : Bool :=
  match workspaceConfig with
  | none => false
  | some cfg => cfg.watchedExtensions.contains ext

inductive NodeKind where
  | folder
  | file
deriving DecidableEq, Repr

/-- FolderNode from src/unnamed/part_000 lines 248-258: folder nodes
carry children and no extension, size or lastModified; file nodes carry
no children. -/
inductive FolderNode where
  | mk (id : String) (name : String) (path : String) (type : NodeKind)
      (children : List FolderNode) (extension : Option String)
      (size : Option Nat) (lastModified : Option Nat)

def FolderNode.name : FolderNode → String
  | .mk _ n _ _ _ _ _ _ => n

def FolderNode.path : FolderNode → String
  | .mk _ _ p _ _ _ _ _ => p

def FolderNode.type : FolderNode → NodeKind
  | .mk _ _ _ t _ _ _ _ => t

def FolderNode.children : FolderNode → List FolderNode
  | .mk _ _ _ _ ch _ _ _ => ch

def FolderNode.extension : FolderNode → Option String
  | .mk _ _ _ _ _ ex _ _ => ex

/-- The comparator of the sort at src/unnamed/part_000 lines 343-348:
folders before files, then by name (localeCompare is modelled as
code-unit string order). -/
def nodeLE (a b : FolderNode) : Bool :=
  if a.type = b.type then decide (a.name ≤ b.name)
  else decide (a.type = NodeKind.folder)

def insertNode (a : FolderNode) : List FolderNode → List FolderNode
  | [] => [a]
  | b :: bs => if nodeLE a b then a :: b :: bs else b :: insertNode a bs

/-- The Array.prototype.sort call, modelled as a stable insertion sort
with the same comparator. -/
def sortNodes (l : List FolderNode) : List FolderNode := l.foldr insertNode []

/-- The enumeration loop of LocalFileSystemService.buildFolderTree
(src/unnamed/part_000 lines 299-341) before the final sort.  The try
catch of the source wraps the whole loop, so an entry whose getFile
call throws (badFile) ends the enumeration of the directory: the nodes
accumulated before it are returned and the entries after it are never
visited.  Directory children are built by the recursive invocation,
which sorts and absorbs its own failures. -/
def buildEntries (workspaceConfig : Option WorkspaceConfig) (parentPath : String) :
    List Entry → List FolderNode
  | [] => []
  | e :: rest =>
    if lfsShouldExclude workspaceConfig e.name then
      buildEntries workspaceConfig parentPath rest
    else
      match e with
      | .dir n ch =>
        FolderNode.mk (joinPath parentPath n) n (joinPath parentPath n) .folder
            (sortNodes (buildEntries workspaceConfig (joinPath parentPath n) ch))
            none none none
          :: buildEntries workspaceConfig parentPath rest
      | .file n c lm =>
        if watchedOK workspaceConfig (getFileExtension n) then
          FolderNode.mk (joinPath parentPath n) n (joinPath parentPath n) .file []
              (some (getFileExtension n)) (some c.length) (some lm)
            :: buildEntries workspaceConfig parentPath rest
        else buildEntries workspaceConfig parentPath rest
      | .badFile _ => []

/-- LocalFileSystemService.buildFolderTree: enumerate, then sort. -/
def buildFolderTree (workspaceConfig : Option WorkspaceConfig) (parentPath : String)
    (entries : List Entry) : List FolderNode :=
  sortNodes (buildEntries workspaceConfig parentPath entries)

/-- Every node of a built tree, at every depth. -/
def allNodesList : List FolderNode → List FolderNode
  | [] => []
  | .mk i nm p t ch ex sz lm :: rest =>
    .mk i nm p t ch ex sz lm :: (allNodesList ch ++ allNodesList rest)

theorem mem_insertNode {x a : FolderNode} {l : List FolderNode} :
    x ∈ insertNode a l ↔ x = a ∨ x ∈ l := by
  induction l with
  | nil => simp [insertNode]
  | cons b bs ih =>
    simp only [insertNode]
    split
    · simp [List.mem_cons]
    · rw [List.mem_cons, ih, List.mem_cons]
      tauto

theorem mem_sortNodes {x : FolderNode} {l : List FolderNode} :
    x ∈ sortNodes l ↔ x ∈ l := by
  induction l with
  | nil => simp [sortNodes]
  | cons b bs ih =>
    show x ∈ insertNode b (sortNodes bs) ↔ _
    rw [mem_insertNode, ih, List.mem_cons]

theorem allNodesList_cons (hd : FolderNode) (tl : List FolderNode) :
    allNodesList (hd :: tl) = allNodesList [hd] ++ allNodesList tl := by
  obtain ⟨i, nm, p, t, ch, ex, sz, lm⟩ := hd
  simp [allNodesList]

theorem mem_allNodesList_iff {x : FolderNode} {l : List FolderNode} :
    x ∈ allNodesList l ↔ ∃ m ∈ l, x ∈ allNodesList [m] := by
  induction l with
  | nil => simp [allNodesList]
  | cons hd tl ih =>
    rw [allNodesList_cons, List.mem_append, ih]
    constructor
    · rintro (h | ⟨m, hm, hx⟩)
      · exact ⟨hd, List.mem_cons_self _ _, h⟩
      · exact ⟨m, List.mem_cons_of_mem _ hm, hx⟩
    · rintro ⟨m, hm, hx⟩
      rcases List.mem_cons.mp hm with h | h
      · subst h
        exact Or.inl hx
      · exact Or.inr ⟨m, h, hx⟩

theorem mem_allNodesList_of_mem {m : FolderNode} {l : List FolderNode} (h : m ∈ l) :
    m ∈ allNodesList l := by
  refine mem_allNodesList_iff.mpr ⟨m, h, ?_⟩
  obtain ⟨i, nm, p, t, ch, ex, sz, lm⟩ := m
  simp [allNodesList]

theorem mem_allNodesList_sortNodes {x : FolderNode} {l : List FolderNode} :
    x ∈ allNodesList (sortNodes l) ↔ x ∈ allNodesList l := by
  rw [mem_allNodesList_iff, mem_allNodesList_iff (l := l)]
  constructor <;> rintro ⟨m, hm, hx⟩
  · exact ⟨m, mem_sortNodes.mp hm, hx⟩
  · exact ⟨m, mem_sortNodes.mpr hm, hx⟩

/-- Every node the enumeration loop produces, at every depth, has a
name that fails the exclusion test, and every file node among them has
a watched extension. -/
theorem buildEntries_nodes_invariant (workspaceConfig : Option WorkspaceConfig)
    (parentPath : String) (entries : List Entry) :
    ∀ n ∈ allNodesList (buildEntries workspaceConfig parentPath entries),
      lfsShouldExclude workspaceConfig n.name = false ∧
      (n.type = .file →
        watchedOK workspaceConfig (getFileExtension n.name) = true) := by
  induction parentPath, entries using buildEntries.induct workspaceConfig with
  | case1 pp => simp [buildEntries, allNodesList]
  | case2 pp e rest hexcl ih =>
    have heq : buildEntries workspaceConfig pp (e :: rest)
        = buildEntries workspaceConfig pp rest := by
      cases e with
      | file n c lm => rw [buildEntries, if_pos hexcl]
      | badFile n => rw [buildEntries, if_pos hexcl]
      | dir n ch => rw [buildEntries, if_pos hexcl]
    rw [heq]
    exact ih
  | case3 pp rest n ch hexcl ihch ihrest =>
    have hx : lfsShouldExclude workspaceConfig n = false := by
      simpa [Entry.name] using hexcl
    rw [buildEntries, if_neg hexcl]
    rw [allNodesList_cons]
    intro m hm
    rcases List.mem_append.mp hm with hm1 | hm1
    · simp only [allNodesList, List.append_nil] at hm1
      rcases List.mem_cons.mp hm1 with hm2 | hm2
      · subst hm2
        simp [FolderNode.name, FolderNode.type, hx]
      · exact ihch m (mem_allNodesList_sortNodes.mp hm2)
    · exact ihrest m hm1
  | case4 pp rest n c lm hwok hexcl ih =>
    have hx : lfsShouldExclude workspaceConfig n = false := by
      simpa [Entry.name] using hexcl
    rw [buildEntries, if_neg hexcl, if_pos hwok]
    rw [allNodesList_cons]
    intro m hm
    rcases List.mem_append.mp hm with hm1 | hm1
    · simp only [allNodesList, List.append_nil] at hm1
      rcases List.mem_cons.mp hm1 with hm2 | hm2
      · subst hm2
        simp only [FolderNode.name, FolderNode.type]
        exact ⟨hx, fun _ => hwok⟩
      · cases hm2
    · exact ih m hm1
  | case5 pp rest n c lm hwok hexcl ih =>
    rw [buildEntries, if_neg hexcl, if_neg hwok]
    exact ih
  | case6 pp rest nm hexcl =>
    rw [buildEntries, if_neg hexcl]
    simp [allNodesList]

/-- A path of entry names that the builder exclusion rule lets
through: each component on the way, the last one included, names an
actual entry (directories above, any entry at the leaf) and fails the
exclusion test. -/
def EntryPathOK (workspaceConfig : Option WorkspaceConfig) :
    List Entry → List String → Prop
  | _, [] => False
  | es, [s] => (∃ e ∈ es, Entry.name e = s) ∧
      lfsShouldExclude workspaceConfig s = false
  | es, d :: s :: r => ∃ ch, Entry.dir d ch ∈ es ∧
      lfsShouldExclude workspaceConfig d = false ∧
      EntryPathOK workspaceConfig ch (s :: r)

theorem entryPathOK_nil_segs (workspaceConfig : Option WorkspaceConfig)
    (es : List Entry) : ¬ EntryPathOK workspaceConfig es [] := by
  simp [EntryPathOK]

theorem entryPathOK_single (workspaceConfig : Option WorkspaceConfig)
    (es : List Entry) (s : String) :
    EntryPathOK workspaceConfig es [s] ↔
      (∃ e ∈ es, Entry.name e = s) ∧
      lfsShouldExclude workspaceConfig s = false := Iff.rfl

theorem entryPathOK_cons2 (workspaceConfig : Option WorkspaceConfig)
    (es : List Entry) (d s : String) (r : List String) :
    EntryPathOK workspaceConfig es (d :: s :: r) ↔
      ∃ ch, Entry.dir d ch ∈ es ∧
        lfsShouldExclude workspaceConfig d = false ∧
        EntryPathOK workspaceConfig ch (s :: r) := Iff.rfl

theorem entryPathOK_of_tail {workspaceConfig : Option WorkspaceConfig}
    {e : Entry} {rest : List Entry} {segs : List String}
    (h : EntryPathOK workspaceConfig rest segs) :
    EntryPathOK workspaceConfig (e :: rest) segs := by
  rcases segs with _ | ⟨s, _ | ⟨s2, r⟩⟩
  · exact absurd h (entryPathOK_nil_segs workspaceConfig rest)
  · obtain ⟨⟨e2, he2, hn2⟩, hx⟩ := (entryPathOK_single workspaceConfig rest s).mp h
    exact (entryPathOK_single workspaceConfig _ s).mpr
      ⟨⟨e2, List.mem_cons_of_mem _ he2, hn2⟩, hx⟩
  · obtain ⟨ch, hm, hx, hr⟩ := (entryPathOK_cons2 workspaceConfig rest s s2 r).mp h
    exact (entryPathOK_cons2 workspaceConfig _ s s2 r).mpr
      ⟨ch, List.mem_cons_of_mem _ hm, hx, hr⟩

/-- Every node the enumeration loop produces sits at the end of a
chain of entries all of whose component names pass the exclusion test:
nothing beneath an excluded directory ever contributes a node. -/
theorem buildEntries_nodes_reachable (workspaceConfig : Option WorkspaceConfig)
    (parentPath : String) (entries : List Entry) :
    ∀ n ∈ allNodesList (buildEntries workspaceConfig parentPath entries),
      ∃ segs0 : List String,
        n.path = joinSegs parentPath (segs0 ++ [n.name]) ∧
        EntryPathOK workspaceConfig entries (segs0 ++ [n.name]) := by
  induction parentPath, entries using buildEntries.induct workspaceConfig with
  | case1 pp => simp [buildEntries, allNodesList]
  | case2 pp e rest hexcl ih =>
    have heq : buildEntries workspaceConfig pp (e :: rest)
        = buildEntries workspaceConfig pp rest := by
      cases e with
      | file n c lm => rw [buildEntries, if_pos hexcl]
      | badFile n => rw [buildEntries, if_pos hexcl]
      | dir n ch => rw [buildEntries, if_pos hexcl]
    rw [heq]
    intro m hm
    obtain ⟨segs0, hp, hok⟩ := ih m hm
    exact ⟨segs0, hp, entryPathOK_of_tail hok⟩
  | case3 pp rest n ch hexcl ihch ihrest =>
    have hx : lfsShouldExclude workspaceConfig n = false := by
      simpa [Entry.name] using hexcl
    rw [buildEntries, if_neg hexcl, allNodesList_cons]
    intro m hm
    rcases List.mem_append.mp hm with hm1 | hm1
    · simp only [allNodesList, List.append_nil] at hm1
      rcases List.mem_cons.mp hm1 with hm2 | hm2
      · subst hm2
        refine ⟨[], ?_, ?_⟩
        · simp [FolderNode.path, FolderNode.name]
        · simp only [FolderNode.name, List.nil_append]
          exact (entryPathOK_single workspaceConfig _ n).mpr
            ⟨⟨Entry.dir n ch, List.mem_cons_self _ _, rfl⟩, hx⟩
      · obtain ⟨segs0, hp, hok⟩ := ihch m (mem_allNodesList_sortNodes.mp hm2)
        refine ⟨n :: segs0, ?_, ?_⟩
        · simpa using hp
        · cases hseg : segs0 ++ [FolderNode.name m] with
          | nil => exact absurd hseg (by simp)
          | cons s r =>
            rw [List.cons_append, hseg]
            rw [hseg] at hok
            exact (entryPathOK_cons2 workspaceConfig _ n s r).mpr
              ⟨ch, List.mem_cons_self _ _, hx, hok⟩
    · obtain ⟨segs0, hp, hok⟩ := ihrest m hm1
      exact ⟨segs0, hp, entryPathOK_of_tail hok⟩
  | case4 pp rest n c lm hwok hexcl ih =>
    have hx : lfsShouldExclude workspaceConfig n = false := by
      simpa [Entry.name] using hexcl
    rw [buildEntries, if_neg hexcl, if_pos hwok, allNodesList_cons]
    intro m hm
    rcases List.mem_append.mp hm with hm1 | hm1
    · simp only [allNodesList, List.append_nil] at hm1
      rcases List.mem_cons.mp hm1 with hm2 | hm2
      · subst hm2
        refine ⟨[], ?_, ?_⟩
        · simp [FolderNode.path, FolderNode.name]
        · simp only [FolderNode.name, List.nil_append]
          exact (entryPathOK_single workspaceConfig _ n).mpr
            ⟨⟨Entry.file n c lm, List.mem_cons_self _ _, rfl⟩, hx⟩
      · cases hm2
    · obtain ⟨segs0, hp, hok⟩ := ih m hm1
      exact ⟨segs0, hp, entryPathOK_of_tail hok⟩
  | case5 pp rest n c lm hwok hexcl ih =>
    rw [buildEntries, if_neg hexcl, if_neg hwok]
    intro m hm
    obtain ⟨segs0, hp, hok⟩ := ih m hm
    exact ⟨segs0, hp, entryPathOK_of_tail hok⟩
  | case6 pp rest nm hexcl =>
    rw [buildEntries, if_neg hexcl]
    simp [allNodesList]

/-- C2 amended: with the configuration the code actually installs (the
patterns node_modules, .git and .DS_Store matched by substring
containment), an excluded entry never appears in the tree built by
getFolderStructure and neither does anything beneath it: every node of
the built tree, at any depth, has a name that fails the exclusion test
and sits at the end of a chain of entries all of whose component
names, its ancestors included, fail the exclusion test, so no node for
an excluded entry, and no node below an excluded directory, exists
anywhere in the result. -/
theorem buildFolderTree_never_contains_excluded
    (workspaceConfig : Option WorkspaceConfig) (parentPath : String)
    (entries : List Entry) :
    ∀ n ∈ allNodesList (buildFolderTree workspaceConfig parentPath entries),
      lfsShouldExclude workspaceConfig n.name = false ∧
      ∃ segs0 : List String,
        n.path = joinSegs parentPath (segs0 ++ [n.name]) ∧
        EntryPathOK workspaceConfig entries (segs0 ++ [n.name]) := by
  intro n hn
  have hmem := mem_allNodesList_sortNodes.mp hn
  exact ⟨(buildEntries_nodes_invariant workspaceConfig parentPath entries n hmem).1,
    buildEntries_nodes_reachable workspaceConfig parentPath entries n hmem⟩

/-- The workspace configuration after setWorkspace on a root named ws. -/
def cfgWS : Option WorkspaceConfig := some (defaultWorkspaceConfig "ws")

/-- A workspace holding a build-output directory named dist. -/
def distTree : List Entry := [Entry.dir "dist" [], Entry.file "a.md" "x" 1]

/-- C2 counterexample: a directory named dist appears in the tree built
by getFolderStructure, although dist is one of the patterns the claim
lists; dist is excluded only by the watcher service, whose pattern list
and prefix matching the claim wrongly ascribes to the tree builder. -/
theorem buildFolderTree_dist_included_cex :
    "dist" ∈ (allNodesList (buildFolderTree cfgWS "" distTree)).map FolderNode.name ∧
    watcherShouldExclude "dist" = true ∧
    lfsShouldExclude cfgWS "dist" = false := by
  refine ⟨?_, by decide, by decide⟩
  have h1 : lfsShouldExclude cfgWS "dist" = false := by decide
  have hstep : buildEntries cfgWS "" distTree
      = FolderNode.mk (joinPath "" "dist") "dist" (joinPath "" "dist") .folder
          (sortNodes (buildEntries cfgWS (joinPath "" "dist") [])) none none none
        :: buildEntries cfgWS "" [Entry.file "a.md" "x" 1] := by
    show buildEntries cfgWS ""
        (Entry.dir "dist" [] :: [Entry.file "a.md" "x" 1]) = _
    conv_lhs => rw [buildEntries]
    rw [if_neg (by simp [Entry.name, h1])]
  have hmem : (FolderNode.mk (joinPath "" "dist") "dist" (joinPath "" "dist") .folder
      (sortNodes (buildEntries cfgWS (joinPath "" "dist") [])) none none none)
      ∈ buildFolderTree cfgWS "" distTree := by
    rw [buildFolderTree]
    refine mem_sortNodes.mpr ?_
    rw [hstep]
    exact List.mem_cons_self _ _
  exact List.mem_map.mpr ⟨_, mem_allNodesList_of_mem hmem, rfl⟩

/-- Entries of one directory that follow a bad entry are never built:
the loop-level catch of buildFolderTree ends enumeration of that
directory at the first entry whose metadata read throws. -/
theorem buildEntries_badFile_truncates (workspaceConfig : Option WorkspaceConfig)
    (bn : String) (hbn : lfsShouldExclude workspaceConfig bn = false) :
    ∀ (parentPath : String) (es1 es2 : List Entry),
      buildEntries workspaceConfig parentPath (es1 ++ Entry.badFile bn :: es2)
        = buildEntries workspaceConfig parentPath es1 := by
  intro parentPath es1 es2
  induction es1 with
  | nil =>
    have hl : buildEntries workspaceConfig parentPath (Entry.badFile bn :: es2)
        = [] := by
      rw [buildEntries, if_neg (by simp [Entry.name, hbn])]
    simp [hl, buildEntries]
  | cons e es1 ih =>
    cases e with
    | file n c lm =>
      simp only [List.cons_append, buildEntries]
      split
      · exact ih
      · split
        · rw [ih]
        · exact ih
    | badFile n2 =>
      simp only [List.cons_append, buildEntries]
      split
      · exact ih
      · rfl
    | dir n2 ch =>
      simp only [List.cons_append, buildEntries]
      split
      · exact ih
      · rw [ih]

/-- C4 amended: an entry whose metadata read throws is caught at the
directory level, not per entry: the nodes enumerated before it in the
same directory are kept, its later siblings in that directory are
dropped, and the failure never escapes the directory — when the bad
entry sits inside a subdirectory, the parent keeps the subdirectory
node (with the truncated children) and still enumerates every entry
after the subdirectory. -/
theorem buildFolderTree_failure_containment
    (workspaceConfig : Option WorkspaceConfig) (parentPath : String)
    (es1 es2 : List Entry) (bn : String)
    (hbn : lfsShouldExclude workspaceConfig bn = false) :
    buildEntries workspaceConfig parentPath (es1 ++ Entry.badFile bn :: es2)
      = buildEntries workspaceConfig parentPath es1
    ∧ ∀ (d : String) (ch1 ch2 rest : List Entry),
        lfsShouldExclude workspaceConfig d = false →
        buildEntries workspaceConfig parentPath
            (Entry.dir d (ch1 ++ Entry.badFile bn :: ch2) :: rest)
          = FolderNode.mk (joinPath parentPath d) d (joinPath parentPath d) .folder
              (sortNodes (buildEntries workspaceConfig (joinPath parentPath d) ch1))
              none none none
            :: buildEntries workspaceConfig parentPath rest := by
  constructor
  · exact buildEntries_badFile_truncates workspaceConfig bn hbn parentPath es1 es2
  · intro d ch1 ch2 rest hd
    rw [buildEntries, if_neg (by simp [Entry.name, hd])]
    rw [buildEntries_badFile_truncates workspaceConfig bn hbn (joinPath parentPath d) ch1 ch2]

theorem buildFolderTree_failure_containment_witness :
    lfsShouldExclude cfgWS "boom" = false ∧
    (buildEntries cfgWS "" ([Entry.file "a.md" "x" 1]
        ++ Entry.badFile "boom" :: [Entry.file "b.md" "y" 2])
      = buildEntries cfgWS "" [Entry.file "a.md" "x" 1]
    ∧ ∀ (d : String) (ch1 ch2 rest : List Entry),
        lfsShouldExclude cfgWS d = false →
        buildEntries cfgWS ""
            (Entry.dir d (ch1 ++ Entry.badFile "boom" :: ch2) :: rest)
          = FolderNode.mk (joinPath "" d) d (joinPath "" d) .folder
              (sortNodes (buildEntries cfgWS (joinPath "" d) ch1))
              none none none
            :: buildEntries cfgWS "" rest) :=
  ⟨by decide, buildFolderTree_failure_containment cfgWS ""
    [Entry.file "a.md" "x" 1] [Entry.file "b.md" "y" 2] "boom" (by decide)⟩

/-- A directory whose enumeration hits a bad entry between two good
Markdown files. -/
def badSiblingTree : List Entry :=
  [Entry.file "a.md" "x" 1, Entry.badFile "boom", Entry.file "b.md" "y" 2]

/-- C4 counterexample: the sibling b.md that follows the failing entry
is missing from the built tree even though nothing excludes it, so the
failure is not caught per entry as the claim states. -/
theorem buildFolderTree_bad_entry_drops_sibling_cex :
    (buildFolderTree cfgWS "" badSiblingTree).map FolderNode.name = ["a.md"] ∧
    lfsShouldExclude cfgWS "b.md" = false ∧
    watchedOK cfgWS (getFileExtension "b.md") = true := by
  refine ⟨?_, by decide, by decide⟩
  have h1 : lfsShouldExclude cfgWS "a.md" = false := by decide
  have h2 : watchedOK cfgWS (getFileExtension "a.md") = true := by decide
  have h3 : lfsShouldExclude cfgWS "boom" = false := by decide
  have hstep : buildEntries cfgWS "" badSiblingTree
      = [FolderNode.mk (joinPath "" "a.md") "a.md" (joinPath "" "a.md") .file []
          (some (getFileExtension "a.md")) (some ("x".length)) (some 1)] := by
    show buildEntries cfgWS "" (Entry.file "a.md" "x" 1
        :: Entry.badFile "boom" :: [Entry.file "b.md" "y" 2]) = _
    rw [buildEntries, if_neg (by simp [Entry.name, h1]), if_pos h2,
      buildEntries, if_neg (by simp [Entry.name, h3])]
  rw [buildFolderTree, hstep]
  rfl

/-- FileDocument from the file service interface, with Date modelled
as a Nat timestamp. -/
structure FileDocument where
  id : String
  title : String
  content : String
  filePath : String
  createdAt : Nat
  updatedAt : Nat
  size : Nat

/-- The error taxonomy of the workspace operations: the thrown Error
with the no-workspace message, and every other thrown failure. -/
inductive FsError where
  | noWorkspace
  | pathError
deriving DecidableEq, Repr

/-- The static mutable state of LocalFileSystemService together with
the directory tree its capability points into.  The in-memory handle
and the IndexedDB record are modelled as presence flags over the one
shared tree fs. -/
structure LFS where
  fs : List Entry
  directoryHandle : Bool
  stored : Bool
  workspaceConfig : Option WorkspaceConfig

/-- LocalFileSystemService.getStoredDirectoryHandle (src/unnamed/
part_000 lines 481-500): return the in-memory handle when present,
otherwise load the persisted record and cache it (also caching the
null result). -/
def getStoredDirectoryHandle (st : LFS) : Option Unit × LFS :=
  if st.directoryHandle then (some (), st)
  else ((if st.stored then some () else none), { st with directoryHandle := st.stored })

/-- JavaScript String.prototype.split for a one-character separator. -/
def splitOnChar (sep : Char) : List Char → List (List Char)
  | [] => [[]]
  | c :: rest =>
    match splitOnChar sep rest with
    | [] => [[]]
    | h :: t => if c = sep then [] :: h :: t else (c :: h) :: t

def pathSplit (p : String) : List String :=
  (splitOnChar '/' p.data).map (fun l => String.mk l)

/-- LocalFileSystemService.getFileName (src/unnamed/part_000 lines
529-531): last path segment, falling back to the whole path when the
popped segment is the empty string. -/
def getFileName (filePath : String) : String :=
  match (pathSplit filePath).getLast? with
  | some last => if last = "" then filePath else last
  | none => filePath

/-- The path preparation of getFileHandle (src/unnamed/part_000 lines
533-549): pop the file name, then walk the remaining non-empty
segments. -/
def splitFilePath (filePath : String) : List String × String :=
  let parts := pathSplit filePath
  (parts.dropLast.filter (fun s => s ≠ ""), (parts.getLast?).getD "")

def fsFind : List Entry → String → Option Entry
  | [], _ => none
  | e :: rest, n => if e.name = n then some e else fsFind rest n

def replaceEntry : List Entry → String → Entry → List Entry
  | [], _, _ => []
  | x :: xs, n, e => if x.name = n then e :: xs else x :: replaceEntry xs n e

def removeFirstEntry : List Entry → String → List Entry
  | [], _ => []
  | x :: xs, n => if x.name = n then xs else x :: removeFirstEntry xs n

/-- Resolution with create semantics followed by a write, as performed
by getFileHandle(create) plus createWritable/write/close: missing
directory segments are created, a segment present with the wrong kind
is a failure, and the final write replaces or appends the file entry.
Writing over an entry whose reads fail (badFile) is modelled as a
failure. -/
def fsWritePath : List Entry → List String → String → String → Nat →
    Option (List Entry)
  | es, [], fileName, content, now =>
    match fsFind es fileName with
    | some (Entry.file _ _ _) =>
      some (replaceEntry es fileName (Entry.file fileName content now))
    | some _ => none
    | none => some (es ++ [Entry.file fileName content now])
  | es, d :: ds, fileName, content, now =>
    match fsFind es d with
    | some (Entry.dir _ ch) =>
      (fsWritePath ch ds fileName content now).map
        (fun ch2 => replaceEntry es d (Entry.dir d ch2))
    | some _ => none
    | none =>
      (fsWritePath [] ds fileName content now).map
        (fun ch2 => es ++ [Entry.dir d ch2])

/-- Resolution without create followed by getFile plus a content read:
every directory segment must exist as a directory and the leaf must be
a readable file. -/
def fsReadPath : List Entry → List String → String → Option (String × Nat)
  | es, [], fileName =>
    match fsFind es fileName with
    | some (Entry.file _ c lm) => some (c, lm)
    | _ => none
  | es, d :: ds, fileName =>
    match fsFind es d with
    | some (Entry.dir _ ch) => fsReadPath ch ds fileName
    | _ => none

/-- getDirectoryHandle with create over every segment, as used by
createFolder. -/
def fsMkdirPath : List Entry → List String → Option (List Entry)
  | es, [] => some es
  | es, d :: ds =>
    match fsFind es d with
    | some (Entry.dir _ ch) =>
      (fsMkdirPath ch ds).map (fun ch2 => replaceEntry es d (Entry.dir d ch2))
    | some _ => none
    | none => (fsMkdirPath [] ds).map (fun ch2 => es ++ [Entry.dir d ch2])

/-- Parent resolution without create followed by removeEntry with
recursive true, as in deleteItem. -/
def fsRemovePath : List Entry → List String → String → Option (List Entry)
  | es, [], n => if (fsFind es n).isSome then some (removeFirstEntry es n) else none
  | es, d :: ds, n =>
    match fsFind es d with
    | some (Entry.dir _ ch) =>
      (fsRemovePath ch ds n).map (fun ch2 => replaceEntry es d (Entry.dir d ch2))
    | _ => none

/-- LocalFileSystemService.getFolderStructure (src/unnamed/part_000
lines 289-296). -/
def getFolderStructure (st : LFS) : Except FsError (List FolderNode) × LFS :=
  match getStoredDirectoryHandle st with
  | (none, st2) => (Except.error .noWorkspace, st2)
  | (some _, st2) => (Except.ok (buildFolderTree st2.workspaceConfig "" st2.fs), st2)

/-- LocalFileSystemService.readFile (src/unnamed/part_000 lines
352-379): wordDecode stands for the mammoth decode applied only to the
word-processor extensions. -/
def readFile (wordDecode : String → String) (st : LFS) (filePath : String) :
    Except FsError FileDocument × LFS :=
  match getStoredDirectoryHandle st with
  | (none, st2) => (Except.error .noWorkspace, st2)
  | (some _, st2) =>
    match fsReadPath st2.fs (splitFilePath filePath).1 (splitFilePath filePath).2 with
    | none => (Except.error .pathError, st2)
    | some (raw, lm) =>
      let extension := getFileExtension filePath
      let content := if extension = ".docx" ∨ extension = ".doc"
                     then wordDecode raw else raw
      (Except.ok ⟨filePath, getFileName filePath, content, filePath, lm, lm,
        raw.length⟩, st2)

/-- LocalFileSystemService.saveFile (src/unnamed/part_000 lines
382-404): wordEncode stands for the docx encoder applied only to the
.docx extension; the passed document gets its updatedAt and size
refreshed. -/
def saveFile (wordEncode : String → String → String) (now : Nat) (st : LFS)
    (document : FileDocument) : Except FsError FileDocument × LFS :=
  match getStoredDirectoryHandle st with
  | (none, st2) => (Except.error .noWorkspace, st2)
  | (some _, st2) =>
    let written := if getFileExtension document.filePath = ".docx"
                   then wordEncode document.content document.title
                   else document.content
    match fsWritePath st2.fs (splitFilePath document.filePath).1
        (splitFilePath document.filePath).2 written now with
    | none => (Except.error .pathError, st2)
    | some fs2 =>
      (Except.ok { document with updatedAt := now, size := document.content.length },
       { st2 with fs := fs2 })

/-- The regular expression replace of createFile: strip a final dot
followed by one or more characters none of which is a dot or slash. -/
def stripLastExt (fileName : String) : String :=
  match lastIdxOf '.' fileName.data with
  | some i =>
    let suffix := fileName.data.drop (i + 1)
    if suffix ≠ [] ∧ suffix.all (fun ch => ch ≠ '/')
    then String.mk (fileName.data.take i)
    else fileName
  | none => fileName

def defaultTemplate (fileName : String) : String :=
  "# " ++ stripLastExt fileName ++ "\n\n开始写作..."

/-- LocalFileSystemService.createFile (src/unnamed/part_000 lines
407-429): note the returned size is the length of the content argument
even when the placeholder template was written. -/
def createFile (now : Nat) (st : LFS) (folderPath fileName content : String) :
    Except FsError FileDocument × LFS :=
  match getStoredDirectoryHandle st with
  | (none, st2) => (Except.error .noWorkspace, st2)
  | (some _, st2) =>
    let filePath := if folderPath = "" then fileName
                    else folderPath ++ "/" ++ fileName
    let written := if content = "" then defaultTemplate fileName else content
    match fsWritePath st2.fs (splitFilePath filePath).1 (splitFilePath filePath).2
        written now with
    | none => (Except.error .pathError, st2)
    | some fs2 =>
      (Except.ok ⟨filePath, fileName, written, filePath, now, now, content.length⟩,
       { st2 with fs := fs2 })

/-- LocalFileSystemService.createFolder (src/unnamed/part_000 lines
432-440). -/
def createFolder (st : LFS) (parentPath folderName : String) :
    Except FsError Unit × LFS :=
  match getStoredDirectoryHandle st with
  | (none, st2) => (Except.error .noWorkspace, st2)
  | (some _, st2) =>
    let folderPath := if parentPath = "" then folderName
                      else parentPath ++ "/" ++ folderName
    match fsMkdirPath st2.fs ((pathSplit folderPath).filter (fun s => s ≠ "")) with
    | none => (Except.error .pathError, st2)
    | some fs2 => (Except.ok (), { st2 with fs := fs2 })

/-- LocalFileSystemService.deleteItem (src/unnamed/part_000 lines
443-458). -/
def deleteItem (st : LFS) (itemPath : String) : Except FsError Unit × LFS :=
  match getStoredDirectoryHandle st with
  | (none, st2) => (Except.error .noWorkspace, st2)
  | (some _, st2) =>
    match fsRemovePath st2.fs (splitFilePath itemPath).1 (splitFilePath itemPath).2 with
    | none => (Except.error .pathError, st2)
    | some fs2 => (Except.ok (), { st2 with fs := fs2 })

theorem getStoredDirectoryHandle_none (st : LFS) (h1 : st.directoryHandle = false)
    (h2 : st.stored = false) : getStoredDirectoryHandle st = (none, st) := by
  obtain ⟨fs, dh, sd, cfg⟩ := st
  dsimp only at h1 h2
  subst h1
  subst h2
  rfl

/-- C5: with no in-memory handle and no persisted record, every
workspace operation fails with the no-workspace error and leaves the
service state, including the underlying tree, untouched. -/
theorem operations_noWorkspace_no_side_effects (st : LFS)
    (wordDecode : String → String) (wordEncode : String → String → String)
    (now : Nat) (p fp fn c pp fd ip : String) (document : FileDocument)
    (h1 : st.directoryHandle = false) (h2 : st.stored = false) :
    getFolderStructure st = (Except.error .noWorkspace, st) ∧
    readFile wordDecode st p = (Except.error .noWorkspace, st) ∧
    saveFile wordEncode now st document = (Except.error .noWorkspace, st) ∧
    createFile now st fp fn c = (Except.error .noWorkspace, st) ∧
    createFolder st pp fd = (Except.error .noWorkspace, st) ∧
    deleteItem st ip = (Except.error .noWorkspace, st) := by
  have hg := getStoredDirectoryHandle_none st h1 h2
  refine ⟨?_, ?_, ?_, ?_, ?_, ?_⟩ <;>
    simp [getFolderStructure, readFile, saveFile, createFile, createFolder,
      deleteItem, hg]

/-- The service state before any workspace has ever been selected. -/
def emptyLFS : LFS := ⟨[], false, false, none⟩

theorem operations_noWorkspace_no_side_effects_witness :
    (emptyLFS.directoryHandle = false ∧ emptyLFS.stored = false) ∧
    (getFolderStructure emptyLFS = (Except.error .noWorkspace, emptyLFS) ∧
     readFile (fun s => s) emptyLFS "x.md" = (Except.error .noWorkspace, emptyLFS) ∧
     saveFile (fun s _ => s) 3 emptyLFS ⟨"a", "a", "h", "a.md", 0, 0, 1⟩
       = (Except.error .noWorkspace, emptyLFS) ∧
     createFile 3 emptyLFS "" "n.md" "" = (Except.error .noWorkspace, emptyLFS) ∧
     createFolder emptyLFS "" "d" = (Except.error .noWorkspace, emptyLFS) ∧
     deleteItem emptyLFS "x.md" = (Except.error .noWorkspace, emptyLFS)) :=
  ⟨⟨rfl, rfl⟩, operations_noWorkspace_no_side_effects emptyLFS (fun s => s)
    (fun s _ => s) 3 "x.md" "" "n.md" "" "" "d" "x.md"
    ⟨"a", "a", "h", "a.md", 0, 0, 1⟩ rfl rfl⟩

theorem fsFind_append_of_none {es : List Entry} {n : String} (e : Entry)
    (h : fsFind es n = none) :
    fsFind (es ++ [e]) n = if e.name = n then some e else none := by
  induction es with
  | nil => simp [fsFind]
  | cons x xs ih =>
    by_cases hx : x.name = n
    · rw [fsFind, if_pos hx] at h
      cases h
    · rw [fsFind, if_neg hx] at h
      rw [List.cons_append, fsFind, if_neg hx]
      exact ih h

theorem fsFind_replaceEntry {es : List Entry} {n : String} {e : Entry}
    (hs : (fsFind es n).isSome) (he : e.name = n) :
    fsFind (replaceEntry es n e) n = some e := by
  induction es with
  | nil => simp [fsFind] at hs
  | cons x xs ih =>
    by_cases hx : x.name = n
    · rw [replaceEntry, if_pos hx, fsFind, if_pos he]
    · rw [replaceEntry, if_neg hx, fsFind, if_neg hx]
      rw [fsFind, if_neg hx] at hs
      exact ih hs

theorem fsWritePath_fsReadPath_roundtrip :
    ∀ (dirs : List String) (es es2 : List Entry) (fileName content : String)
      (now : Nat),
      fsWritePath es dirs fileName content now = some es2 →
      fsReadPath es2 dirs fileName = some (content, now) := by
  intro dirs
  induction dirs with
  | nil =>
    intro es es2 fn c now h
    rw [fsWritePath] at h
    rcases hf : fsFind es fn with _ | e
    · rw [hf] at h
      simp only [Option.some.injEq] at h
      subst h
      rw [fsReadPath, fsFind_append_of_none _ hf]
      simp [Entry.name]
    · rw [hf] at h
      cases e with
      | file n2 c2 lm2 =>
        simp only [Option.some.injEq] at h
        subst h
        have hfr := fsFind_replaceEntry (n := fn) (e := Entry.file fn c now)
          (by rw [hf]; rfl) (by simp [Entry.name])
        rw [fsReadPath, hfr]
      | badFile n2 => cases h
      | dir n2 ch => cases h
  | cons d ds ih =>
    intro es es2 fn c now h
    rw [fsWritePath] at h
    rcases hf : fsFind es d with _ | e
    · rw [hf] at h
      rcases Option.map_eq_some'.mp h with ⟨ch2, hw, hes⟩
      subst hes
      rw [fsReadPath, fsFind_append_of_none _ hf]
      simp only [Entry.name, if_pos]
      exact ih [] ch2 fn c now hw
    · rw [hf] at h
      cases e with
      | dir n2 ch =>
        rcases Option.map_eq_some'.mp h with ⟨ch2, hw, hes⟩
        subst hes
        have hfr := fsFind_replaceEntry (n := d) (e := Entry.dir d ch2)
          (by rw [hf]; rfl) (by simp [Entry.name])
        rw [fsReadPath, hfr]
        exact ih ch ch2 fn c now hw
      | file n2 c2 lm2 => cases h
      | badFile n2 => cases h

theorem getStoredDirectoryHandle_some (st st1 : LFS) (u : Unit)
    (h : getStoredDirectoryHandle st = (some u, st1)) :
    st1.directoryHandle = true := by
  unfold getStoredDirectoryHandle at h
  by_cases hd : st.directoryHandle = true
  · rw [if_pos hd] at h
    have h2 := congrArg Prod.snd h
    dsimp only at h2
    rw [← h2]
    exact hd
  · rw [if_neg hd] at h
    by_cases hs : st.stored = true
    · rw [if_pos hs] at h
      have h2 := congrArg Prod.snd h
      dsimp only at h2
      rw [← h2]
      exact hs
    · rw [if_neg hs] at h
      have h1 := congrArg Prod.fst h
      simp at h1

/-- C7: saving a Document at the Markdown path notes/todo.md and then
reading notes/todo.md yields a Document whose content is exactly the
content that was saved, whatever the rest of the tree looks like. -/
theorem saveFile_readFile_roundtrip (wordEncode : String → String → String)
    (wordDecode : String → String) (st st2 : LFS) (document d1 : FileDocument)
    (now : Nat) (hpath : document.filePath = "notes/todo.md")
    (hsave : saveFile wordEncode now st document = (Except.ok d1, st2)) :
    ∃ d2 : FileDocument,
      (readFile wordDecode st2 "notes/todo.md").1 = Except.ok d2 ∧
      d2.content = document.content := by
  rcases hg : getStoredDirectoryHandle st with ⟨o, st1⟩
  cases o with
  | none => simp [saveFile, hg] at hsave
  | some u =>
    simp only [saveFile, hg] at hsave
    rw [hpath] at hsave
    have hsplit1 : (splitFilePath "notes/todo.md").1 = ["notes"] := rfl
    have hsplit2 : (splitFilePath "notes/todo.md").2 = "todo.md" := rfl
    have hext : getFileExtension "notes/todo.md" = ".md" := rfl
    rw [hsplit1, hsplit2, hext, if_neg (by decide)] at hsave
    rcases hw : fsWritePath st1.fs ["notes"] "todo.md" document.content now
      with _ | fs2
    · rw [hw] at hsave
      simp at hsave
    · rw [hw] at hsave
      rw [Prod.mk.injEq] at hsave
      obtain ⟨hd1, hst2⟩ := hsave
      have hread := fsWritePath_fsReadPath_roundtrip ["notes"] st1.fs fs2
        "todo.md" document.content now hw
      have hdh : ({ st1 with fs := fs2 } : LFS).directoryHandle = true :=
        getStoredDirectoryHandle_some st st1 u hg
      refine ⟨⟨"notes/todo.md", getFileName "notes/todo.md", document.content,
        "notes/todo.md", now, now, document.content.length⟩, ?_, rfl⟩
      rw [← hst2]
      unfold readFile
      rw [show getStoredDirectoryHandle { st1 with fs := fs2 }
          = (some (), { st1 with fs := fs2 }) from by
        unfold getStoredDirectoryHandle
        rw [if_pos hdh]]
      rw [hsplit1, hsplit2]
      dsimp only
      rw [hread]
      dsimp only
      rw [hext, if_neg (by decide)]

/-- A freshly selected empty workspace. -/
def savedLFS : LFS := ⟨[], true, true, some (defaultWorkspaceConfig "ws")⟩

def todoDoc : FileDocument :=
  ⟨"notes/todo.md", "todo", "hello", "notes/todo.md", 0, 0, 5⟩

theorem saveFile_readFile_roundtrip_witness :
    (todoDoc.filePath = "notes/todo.md" ∧
     saveFile (fun s _ => s) 9 savedLFS todoDoc
       = (Except.ok ⟨"notes/todo.md", "todo", "hello", "notes/todo.md", 0, 9, 5⟩,
          ⟨[Entry.dir "notes" [Entry.file "todo.md" "hello" 9]], true, true,
           some (defaultWorkspaceConfig "ws")⟩)) ∧
    ∃ d2 : FileDocument,
      (readFile (fun s => s)
        ⟨[Entry.dir "notes" [Entry.file "todo.md" "hello" 9]], true, true,
          some (defaultWorkspaceConfig "ws")⟩ "notes/todo.md").1 = Except.ok d2 ∧
      d2.content = todoDoc.content :=
  ⟨⟨rfl, rfl⟩, saveFile_readFile_roundtrip (fun s _ => s) (fun s => s) savedLFS _
    todoDoc _ 9 rfl rfl⟩

theorem lastIdxOf_eq_none {c : Char} {l : List Char} (h : c ∉ l) :
    lastIdxOf c l = none := by
  induction l with
  | nil => rfl
  | cons x xs ih =>
    rw [lastIdxOf, ih (fun hx => h (List.mem_cons_of_mem _ hx))]
    rw [if_neg (fun hx => h (by rw [hx]; exact List.mem_cons_self _ _))]

theorem getFileExtension_no_positive_dot {s : String}
    (h : ('.') ∉ s.data.drop 1) : getFileExtension s = "" := by
  unfold getFileExtension
  cases hd : s.data with
  | nil => simp [lastIdxOf]
  | cons x xs =>
    have hx : ('.') ∉ xs := by
      rw [hd] at h
      simpa using h
    rw [lastIdxOf, lastIdxOf_eq_none hx]
    by_cases hxc : x = '.'
    · simp [hxc]
    · simp [hxc]

/-- C9: a name with no dot at an index greater than zero (a bare name
like README or a dotfile like .gitignore) gets the empty extension;
the empty extension is outside the allowlist, so no file node with
that name ever appears in a tree built under the installed
configuration, and readFile on that path never invokes the
word-processor decoder. -/
theorem no_positive_dot_name_properties (s : String)
    (hdot : ('.') ∉ s.data.drop 1) :
    getFileExtension s = "" ∧
    "" ∉ watchedExtensionsDefault ∧
    (∀ (root pp : String) (es : List Entry) (n : FolderNode),
      n ∈ allNodesList (buildFolderTree (some (defaultWorkspaceConfig root)) pp es) →
      n.type = .file → n.name ≠ s) ∧
    (∀ (wordDecode1 wordDecode2 : String → String) (st : LFS),
      readFile wordDecode1 st s = readFile wordDecode2 st s) := by
  have hext0 : getFileExtension s = "" := getFileExtension_no_positive_dot hdot
  refine ⟨hext0, by decide, ?_, ?_⟩
  · intro root pp es n hmem htype hname
    have hw := (buildEntries_nodes_invariant (some (defaultWorkspaceConfig root))
      pp es n (mem_allNodesList_sortNodes.mp hmem)).2 htype
    rw [hname, hext0] at hw
    have hfalse : watchedOK (some (defaultWorkspaceConfig root)) "" = false := rfl
    rw [hfalse] at hw
    cases hw
  · intro wordDecode1 wordDecode2 st
    unfold readFile
    rcases getStoredDirectoryHandle st with ⟨o, st1⟩
    cases o with
    | none => rfl
    | some u =>
      dsimp only
      rcases fsReadPath st1.fs (splitFilePath s).1 (splitFilePath s).2
        with _ | ⟨raw, lm⟩
      · rfl
      · simp [hext0]

theorem no_positive_dot_name_properties_witness :
    ('.') ∉ "README".data.drop 1 ∧
    (getFileExtension "README" = "" ∧
     "" ∉ watchedExtensionsDefault ∧
     (∀ (root pp : String) (es : List Entry) (n : FolderNode),
       n ∈ allNodesList (buildFolderTree (some (defaultWorkspaceConfig root)) pp es) →
       n.type = .file → n.name ≠ "README") ∧
     (∀ (wordDecode1 wordDecode2 : String → String) (st : LFS),
       readFile wordDecode1 st "README" = readFile wordDecode2 st "README")) :=
  ⟨by decide, no_positive_dot_name_properties "README" (by decide)⟩

/-- The node built for a root-level Markdown file named a.md. -/
def nodeAmd : FolderNode :=
  FolderNode.mk "a.md" "a.md" "a.md" .file [] (some ".md") (some 1) (some 1)

theorem buildFolderTree_never_contains_excluded_witness :
    nodeAmd ∈ allNodesList (buildFolderTree cfgWS "" [Entry.file "a.md" "x" 1]) ∧
    (lfsShouldExclude cfgWS nodeAmd.name = false ∧
     ∃ segs0 : List String,
       nodeAmd.path = joinSegs "" (segs0 ++ [nodeAmd.name]) ∧
       EntryPathOK cfgWS [Entry.file "a.md" "x" 1] (segs0 ++ [nodeAmd.name])) := by
  have h1 : lfsShouldExclude cfgWS "a.md" = false := by decide
  have h2 : watchedOK cfgWS (getFileExtension "a.md") = true := by decide
  have hb : buildEntries cfgWS "" [Entry.file "a.md" "x" 1] = [nodeAmd] := by
    rw [buildEntries, if_neg (by simp [Entry.name, h1]), if_pos h2, buildEntries]
    rfl
  have hmem : nodeAmd ∈ allNodesList (buildFolderTree cfgWS ""
      [Entry.file "a.md" "x" 1]) := by
    rw [buildFolderTree, hb]
    exact mem_allNodesList_of_mem (mem_sortNodes.mpr (List.mem_cons_self _ _))
  exact ⟨hmem, buildFolderTree_never_contains_excluded cfgWS ""
    [Entry.file "a.md" "x" 1] nodeAmd hmem⟩
